import Mathlib

/-!
Verification of the client-side synchronization layer of the
collaborative-editing platform: the prefetching deduplicating blob cache
(`PrefetchDocumentStorageService`), the snapshot-tree prefetch walk, and
the document connection orchestrator / event-routing multiplexer
(`DocumentService`).

JavaScript objects used as string-keyed dictionaries are embedded as
insertion-ordered association lists; promises are embedded as identifiers
allocated by a counter, with their eventual outcomes supplied separately,
since the code under study never inspects a promise's settled value when
deciding what to cache or route.
-/

set_option autoImplicit false

namespace FluidSpec

/-! ## Association lists: the embedding of JS objects / `Map` -/

/-- Lookup in an insertion-ordered association list (JS `map.get(k)` /
`obj[k]`, returning `undefined` as `none`). -/
def alGet {α β : Type} [DecidableEq α] (m : List (α × β)) (k : α) : Option β :=
  match m with
  | [] => none
  | (k', v) :: rest => if k' = k then some v else alGet rest k

/-- Update in an insertion-ordered association list (JS `map.set(k, v)` /
`obj[k] = v`): an existing key keeps its position, a new key is appended. -/
def alSet {α β : Type} [DecidableEq α] (m : List (α × β)) (k : α) (v : β) :
    List (α × β) :=
  match m with
  | [] => [(k, v)]
  | (k', v') :: rest => if k' = k then (k, v) :: rest else (k', v') :: alSet rest k v

theorem alGet_alSet_same {α β : Type} [DecidableEq α] (m : List (α × β)) (k : α) (v : β) :
    alGet (alSet m k v) k = some v := by
  induction m with
  | nil => simp [alGet, alSet]
  | cons p rest ih =>
      obtain ⟨k', v'⟩ := p
      by_cases h : k' = k
      · simp [alGet, alSet, h]
      · simp [alGet, alSet, h, ih]

theorem alGet_alSet_other {α β : Type} [DecidableEq α] (m : List (α × β)) (k k' : α) (v : β)
    (hne : k ≠ k') : alGet (alSet m k v) k' = alGet m k' := by
  induction m with
  | nil => simp [alGet, alSet, hne]
  | cons p rest ih =>
      obtain ⟨k0, v0⟩ := p
      by_cases h : k0 = k
      · subst h
        simp [alGet, alSet, hne]
      · simp only [alSet, if_neg h, alGet]
        by_cases h' : k0 = k'
        · simp [h']
        · simp [h', ih]

/-! ## The snapshot tree data model (`ISnapshotTree`)

`blobs` maps names to blob identifiers (`null` embedded as `none`),
`commits` maps names to version references of nested documents, `trees`
maps names to nested snapshot trees.  All three keep JS object key
insertion order. -/

inductive ISnapshotTree : Type where
  | mk : List (String × Option String) → List (String × String) →
      List (String × ISnapshotTree) → ISnapshotTree

def ISnapshotTree.blobs : ISnapshotTree → List (String × Option String)
  | .mk b _ _ => b

def ISnapshotTree.commits : ISnapshotTree → List (String × String)
  | .mk _ c _ => c

def ISnapshotTree.trees : ISnapshotTree → List (String × ISnapshotTree)
  | .mk _ _ t => t

namespace Prefetch

/-! ## The prefetch walk as a trace

`PrefetchDocumentStorageService.prefetchTree` / `prefetchTreeCore`
re-expressed as the ordered trace of the cache reads and nested commit
fetches they issue.  Eager cache reads happen inline during
classification; secondary reads happen only after the whole walk, from
the shared accumulator. -/

/-- JS string indexing `s[i]`: the one-character string at index `i`, or
`undefined` (`none`) past the end. -/
def jsCharAt (s : String) (i : Nat) : Option String :=
  (s.toList.get? i).map (fun c => String.mk [c])

/-- Character-list prefix test, used to embed JS `s.indexOf(pat) === 0`. -/
def charsStartWith : List Char → List Char → Bool
  | _, [] => true
  | [], _ :: _ => false
  | c :: s, p :: ps => c == p && charsStartWith s ps

/-- The eager classification test of `prefetchTreeCore`:
`blobKey[0] === "." || blobKey === "header" || blobKey.indexOf("quorum") === 0`
(for a fixed non-empty literal needle, `indexOf(x) === 0` holds exactly
when the string starts with the needle). -/
def isEagerBlobKey (blobKey : String) : Bool :=
  jsCharAt blobKey 0 == some "." || blobKey == "header" ||
    charsStartWith blobKey.toList "quorum".toList

/-- The delta-exclusion test of `prefetchTreeCore`, literally as written:
`blobKey[0] !== "deltas"` compares the single-character string `blobKey[0]`
(or `undefined`) against the six-character literal `"deltas"`. -/
def isNotDeltasFirstChar (blobKey : String) : Bool :=
  !(jsCharAt blobKey 0 == some "deltas")

/-- One event of the prefetch walk:  an eager cache read issued during
classification, a detached nested-commit fetch, or a secondary cache read
issued after the full traversal. -/
inductive PrefetchEvent : Type where
  | eagerRead (blobId : String)
  | commitFetch (name commitRef : String)
  | secondaryRead (blobId : String)
  deriving DecidableEq, Repr

/-- The blobs loop of `prefetchTreeCore`: classify each `(blobKey, blob)`
entry in key order, issuing eager cache reads inline and appending
non-excluded, non-null blobs to the secondary accumulator. -/
def classifyBlobs : List (String × Option String) → List String →
    List PrefetchEvent × List String
  | [], secondary => ([], secondary)
  | (blobKey, blob) :: rest, secondary =>
      if isEagerBlobKey blobKey then
        match blob with
        | some b =>
            let out := classifyBlobs rest secondary
            (PrefetchEvent.eagerRead b :: out.1, out.2)
        | none => classifyBlobs rest secondary
      else if isNotDeltasFirstChar blobKey then
        match blob with
        | some b => classifyBlobs rest (secondary ++ [b])
        | none => classifyBlobs rest secondary
      else classifyBlobs rest secondary

mutual

/-- `prefetchTreeCore(tree, secondary)`: classify this level's blobs, fire
detached fetches for nested commits, then recurse into nested trees
sharing the same secondary accumulator.  Returns the inline event trace
and the updated accumulator. -/
def prefetchTreeCore : ISnapshotTree → List String →
    List PrefetchEvent × List String
  | .mk blobs commits trees, secondary =>
      let stepBlobs := classifyBlobs blobs secondary
      let commitEvents := commits.map (fun p => PrefetchEvent.commitFetch p.1 p.2)
      let stepTrees := prefetchTreeCoreList trees stepBlobs.2
      (stepBlobs.1 ++ commitEvents ++ stepTrees.1, stepTrees.2)

/-- The nested-trees loop of `prefetchTreeCore`. -/
def prefetchTreeCoreList : List (String × ISnapshotTree) → List String →
    List PrefetchEvent × List String
  | [], secondary => ([], secondary)
  | (_, t) :: rest, secondary =>
      let here := prefetchTreeCore t secondary
      let there := prefetchTreeCoreList rest here.2
      (here.1 ++ there.1, there.2)

end

/-- `prefetchTree(tree)`: run the core walk with a fresh accumulator, then
issue one cache read per collected secondary blob, in collection order,
after the traversal has completed. -/
def prefetchTree (t : ISnapshotTree) : List PrefetchEvent :=
  let core := prefetchTreeCore t []
  core.1 ++ core.2.map PrefetchEvent.secondaryRead

/-! ## The stateful cache model (`PrefetchDocumentStorageService`)

Promises are identifiers allocated by `nextPromise`; every underlying
`storage.read` call is appended to the `storageReads` log together with
the promise it returned.  A promise's eventual outcome (resolution value
or rejection) is supplied externally by a `settle` function and is never
consulted by the service's control flow, exactly as in the source, where
the cache stores the promise itself, settled or not, failed or not. -/

structure PrefetchState : Type where
  prefetchEnabled : Bool
  prefetchCache : List (String × Nat)
  nextPromise : Nat
  storageReads : List (String × Nat)
  deriving DecidableEq, Repr

/-- The underlying provider's `storage.read(blobId)`: a fresh promise,
logged. -/
def storageRead (s : PrefetchState) (blobId : String) : Nat × PrefetchState :=
  (s.nextPromise,
   { s with
      nextPromise := s.nextPromise + 1
      storageReads := s.storageReads ++ [(blobId, s.nextPromise)] })

/-- `PrefetchDocumentStorageService.cachedRead`: while enabled, return the
cached promise if present, else issue one underlying read and store its
promise in the cache before it settles; while disabled, delegate straight
to the underlying read, never touching the cache. -/
def cachedRead (s : PrefetchState) (blobId : String) : Nat × PrefetchState :=
  if s.prefetchEnabled then
    match alGet s.prefetchCache blobId with
    | some prefetchedBlobP => (prefetchedBlobP, s)
    | none =>
        let fromStorage := storageRead s blobId
        (fromStorage.1,
         { fromStorage.2 with
            prefetchCache := alSet fromStorage.2.prefetchCache blobId fromStorage.1 })
  else
    storageRead s blobId

/-- `PrefetchDocumentStorageService.stopPrefetch`: disable and clear. -/
def stopPrefetch (s : PrefetchState) : PrefetchState :=
  { s with prefetchEnabled := false, prefetchCache := [] }

/-- `PrefetchDocumentStorageService.getSnapshotTree`: delegate to the
underlying provider for the tree promise; attach the detached prefetch
walk exactly when `prefetchEnabled` holds at the time of the call
(`if (p && this.prefetchEnabled)` — the promise `p` itself is always
present).  Returns (returned promise, whether a walk was attached, state). -/
def getSnapshotTreeCall (s : PrefetchState) : Nat × Bool × PrefetchState :=
  let p := s.nextPromise
  (p, s.prefetchEnabled, { s with nextPromise := s.nextPromise + 1 })

/-- State effect of one `cachedRead` whose returned promise is discarded
(fire-and-forget). -/
def cachedReadFF (s : PrefetchState) (blobId : String) : PrefetchState :=
  (cachedRead s blobId).2

/-- The blob identifiers whose cache reads the walk issues inline
(eagerly), in order. -/
def eagerReadsOf (events : List PrefetchEvent) : List String :=
  events.filterMap (fun e =>
    match e with
    | .eagerRead b => some b
    | _ => none)

/-- State effect of running `prefetchTree(tree)`: the inline eager cache
reads in traversal order, then one cache read per collected secondary
blob. -/
def prefetchTreeRun (s : PrefetchState) (t : ISnapshotTree) : PrefetchState :=
  let core := prefetchTreeCore t []
  let afterEager := List.foldl cachedReadFF s (eagerReadsOf core.1)
  List.foldl cachedReadFF afterEager core.2

/-- What happens when the snapshot-tree promise settles: the walk runs on
the resolved tree only if a then-handler was attached at call time and the
tree is present (`if (!tree) return;`). -/
def settleTreePromise (walkAttached : Bool) (tree : Option ISnapshotTree)
    (s : PrefetchState) : PrefetchState :=
  if walkAttached then
    match tree with
    | some t => prefetchTreeRun s t
    | none => s
  else s

/-- The public operations of the facade that can touch its mutable state,
plus the later firing of an attached walk (`walkFire`); the remaining
public methods (`getVersions`, `getContent`, `write`, `createBlob`,
`getRawUrl`, `repositoryUrl`) are pure pass-throughs to the underlying
provider and leave the cache state untouched. -/
inductive FacadeOp : Type where
  | read (blobId : String)
  | getSnapshotTree
  | walkFire (t : ISnapshotTree)
  | stopPrefetch
  | passthrough

def stepOp (s : PrefetchState) : FacadeOp → PrefetchState
  | .read b => (cachedRead s b).2
  | .getSnapshotTree => (getSnapshotTreeCall s).2.2
  | .walkFire t => prefetchTreeRun s t
  | .stopPrefetch => stopPrefetch s
  | .passthrough => s

/-- `read(B)` repeated `n` times while nothing else intervenes (the `N`
concurrent reads, each of whose synchronous bodies runs before any of the
issued promises settles): the list of returned promises and final state. -/
def readN (s : PrefetchState) (blobId : String) : Nat → List Nat × PrefetchState
  | 0 => ([], s)
  | n + 1 =>
      let first := cachedRead s blobId
      let rest := readN first.2 blobId n
      (first.1 :: rest.1, rest.2)

/-- Underlying storage reads issued so far for `blobId`. -/
def readCount (s : PrefetchState) (blobId : String) : Nat :=
  (s.storageReads.filter (fun p => p.1 = blobId)).length

/-! ### Cache behavior lemmas -/

theorem cachedRead_hit (s : PrefetchState) (blobId : String) (p : Nat)
    (hen : s.prefetchEnabled = true) (hp : alGet s.prefetchCache blobId = some p) :
    cachedRead s blobId = (p, s) := by
  simp [cachedRead, hen, hp]

theorem cachedRead_miss (s : PrefetchState) (blobId : String)
    (hen : s.prefetchEnabled = true) (hm : alGet s.prefetchCache blobId = none) :
    cachedRead s blobId =
      (s.nextPromise,
       { prefetchEnabled := s.prefetchEnabled
         prefetchCache := alSet s.prefetchCache blobId s.nextPromise
         nextPromise := s.nextPromise + 1
         storageReads := s.storageReads ++ [(blobId, s.nextPromise)] }) := by
  simp [cachedRead, hen, hm, storageRead]

theorem readN_hit (s : PrefetchState) (blobId : String) (p : Nat) (n : Nat)
    (hen : s.prefetchEnabled = true) (hp : alGet s.prefetchCache blobId = some p) :
    readN s blobId n = (List.replicate n p, s) := by
  induction n with
  | zero => simp [readN]
  | succ m ih => simp [readN, cachedRead_hit s blobId p hen hp, ih, List.replicate_succ]

theorem readCount_append (s : PrefetchState) (blobId : String) :
    readCount
      { s with
          nextPromise := s.nextPromise + 1
          storageReads := s.storageReads ++ [(blobId, s.nextPromise)] } blobId
      = readCount s blobId + 1 := by
  simp [readCount, List.filter_append]

/-- Claim C1: while prefetching is enabled and no entry exists yet for
blob identifier `B`, `n ≥ 1` concurrent `read(B)` calls (each synchronous
call body running before any of the issued promises settles) cause
exactly one underlying storage read for `B`: the first call stores its
promise in the cache keyed by `B` before the read settles, and every call
returns that same stored promise. -/
theorem concurrent_reads_dedup (s : PrefetchState) (B : String) (n : Nat)
    (hen : s.prefetchEnabled = true) (hm : alGet s.prefetchCache B = none)
    (hn : 1 ≤ n) :
    (readN s B n).1 = List.replicate n ((cachedRead s B).1) ∧
    alGet ((cachedRead s B).2).prefetchCache B = some ((cachedRead s B).1) ∧
    alGet ((readN s B n).2).prefetchCache B = some ((cachedRead s B).1) ∧
    readCount (readN s B n).2 B = readCount s B + 1 := by
  obtain ⟨m, rfl⟩ : ∃ m, n = m + 1 := ⟨n - 1, (Nat.succ_pred_eq_of_pos hn).symm⟩
  have hfirst := cachedRead_miss s B hen hm
  set s1 : PrefetchState :=
    { prefetchEnabled := s.prefetchEnabled
      prefetchCache := alSet s.prefetchCache B s.nextPromise
      nextPromise := s.nextPromise + 1
      storageReads := s.storageReads ++ [(B, s.nextPromise)] } with hs1
  have hen1 : s1.prefetchEnabled = true := hen
  have hhit : alGet s1.prefetchCache B = some s.nextPromise :=
    alGet_alSet_same s.prefetchCache B s.nextPromise
  have hrest := readN_hit s1 B s.nextPromise m hen1 hhit
  have hrun : readN s B (m + 1) = (List.replicate (m + 1) s.nextPromise, s1) := by
    simp [readN, hfirst, hrest, List.replicate_succ]
  refine ⟨?_, ?_, ?_, ?_⟩
  · rw [hrun, hfirst]
  · rw [hfirst]
    exact hhit
  · rw [hrun, hfirst]
    exact hhit
  · rw [hrun]
    exact readCount_append s B

/-- Claim C1 witness. -/
theorem concurrent_reads_dedup_witness :
    (⟨true, [], 0, []⟩ : PrefetchState).prefetchEnabled = true ∧
    alGet (⟨true, [], 0, []⟩ : PrefetchState).prefetchCache "B" = none ∧
    1 ≤ 3 ∧
    ((readN ⟨true, [], 0, []⟩ "B" 3).1
        = List.replicate 3 ((cachedRead ⟨true, [], 0, []⟩ "B").1) ∧
      alGet ((cachedRead ⟨true, [], 0, []⟩ "B").2).prefetchCache "B"
        = some ((cachedRead ⟨true, [], 0, []⟩ "B").1) ∧
      alGet ((readN ⟨true, [], 0, []⟩ "B" 3).2).prefetchCache "B"
        = some ((cachedRead ⟨true, [], 0, []⟩ "B").1) ∧
      readCount (readN ⟨true, [], 0, []⟩ "B" 3).2 "B"
        = readCount (⟨true, [], 0, []⟩ : PrefetchState) "B" + 1) :=
  ⟨rfl, rfl, by decide,
   concurrent_reads_dedup ⟨true, [], 0, []⟩ "B" 3 rfl rfl (by decide)⟩

/-- Claim C7: while prefetching is enabled, a `read(B)` whose underlying
storage read settles as a failure has its failed promise cached exactly
like a successful one: a repeated `read(B)` returns the very same cached
failed promise and changes nothing — in particular it issues no further
underlying storage read. -/
theorem failed_read_stays_cached (s : PrefetchState) (B : String) (e : String)
    (settle : Nat → Except String (Option String))
    (hen : s.prefetchEnabled = true) (hm : alGet s.prefetchCache B = none)
    (hfail : settle ((cachedRead s B).1) = Except.error e) :
    (cachedRead ((cachedRead s B).2) B).1 = (cachedRead s B).1 ∧
    settle ((cachedRead ((cachedRead s B).2) B).1) = Except.error e ∧
    (cachedRead ((cachedRead s B).2) B).2 = (cachedRead s B).2 ∧
    readCount ((cachedRead ((cachedRead s B).2) B).2) B
      = readCount ((cachedRead s B).2) B := by
  have hfirst := cachedRead_miss s B hen hm
  have hsecond :
      cachedRead ((cachedRead s B).2) B = (((cachedRead s B).1), (cachedRead s B).2) := by
    rw [hfirst]
    exact cachedRead_hit _ B s.nextPromise hen (alGet_alSet_same s.prefetchCache B s.nextPromise)
  refine ⟨by rw [hsecond], ?_, by rw [hsecond], by rw [hsecond]⟩
  rw [hsecond]
  exact hfail

/-- Claim C7 witness. -/
theorem failed_read_stays_cached_witness :
    (⟨true, [], 0, []⟩ : PrefetchState).prefetchEnabled = true ∧
    alGet (⟨true, [], 0, []⟩ : PrefetchState).prefetchCache "B" = none ∧
    (fun _ : Nat => (Except.error "boom" : Except String (Option String)))
        ((cachedRead ⟨true, [], 0, []⟩ "B").1) = Except.error "boom" ∧
    ((cachedRead ((cachedRead ⟨true, [], 0, []⟩ "B").2) "B").1
        = (cachedRead ⟨true, [], 0, []⟩ "B").1 ∧
      (fun _ : Nat => (Except.error "boom" : Except String (Option String)))
          ((cachedRead ((cachedRead ⟨true, [], 0, []⟩ "B").2) "B").1)
        = Except.error "boom" ∧
      (cachedRead ((cachedRead ⟨true, [], 0, []⟩ "B").2) "B").2
        = (cachedRead ⟨true, [], 0, []⟩ "B").2 ∧
      readCount ((cachedRead ((cachedRead ⟨true, [], 0, []⟩ "B").2) "B").2) "B"
        = readCount ((cachedRead ⟨true, [], 0, []⟩ "B").2) "B") :=
  ⟨rfl, rfl, rfl,
   failed_read_stays_cached ⟨true, [], 0, []⟩ "B" "boom"
     (fun _ => Except.error "boom") rfl rfl rfl⟩

/-! ### The disabled state is a trap state with an empty cache -/

/-- The configuration `stopPrefetch` leaves behind: disabled, empty cache. -/
def disabledClear (s : PrefetchState) : Prop :=
  s.prefetchEnabled = false ∧ s.prefetchCache = []

theorem cachedRead_disabled (s : PrefetchState) (b : String)
    (h : s.prefetchEnabled = false) : cachedRead s b = storageRead s b := by
  simp [cachedRead, h]

theorem disabledClear_storageRead (s : PrefetchState) (b : String)
    (h : disabledClear s) : disabledClear (storageRead s b).2 :=
  ⟨h.1, h.2⟩

theorem disabledClear_cachedReadFF (s : PrefetchState) (b : String)
    (h : disabledClear s) : disabledClear (cachedReadFF s b) := by
  unfold cachedReadFF
  rw [cachedRead_disabled s b h.1]
  exact disabledClear_storageRead s b h

theorem disabledClear_foldl_cachedReadFF (bs : List String) :
    ∀ s : PrefetchState, disabledClear s → disabledClear (List.foldl cachedReadFF s bs) := by
  induction bs with
  | nil => intro s h; exact h
  | cons b rest ih =>
      intro s h
      exact ih (cachedReadFF s b) (disabledClear_cachedReadFF s b h)

theorem disabledClear_prefetchTreeRun (s : PrefetchState) (t : ISnapshotTree)
    (h : disabledClear s) : disabledClear (prefetchTreeRun s t) := by
  unfold prefetchTreeRun
  exact disabledClear_foldl_cachedReadFF _ _ (disabledClear_foldl_cachedReadFF _ _ h)

theorem disabledClear_stepOp (s : PrefetchState) (op : FacadeOp)
    (h : disabledClear s) : disabledClear (stepOp s op) := by
  cases op with
  | read b =>
      show disabledClear (cachedRead s b).2
      rw [cachedRead_disabled s b h.1]
      exact disabledClear_storageRead s b h
  | getSnapshotTree => exact ⟨h.1, h.2⟩
  | walkFire t => exact disabledClear_prefetchTreeRun s t h
  | stopPrefetch => exact ⟨rfl, rfl⟩
  | passthrough => exact h

theorem disabledClear_foldl_stepOp (ops : List FacadeOp) :
    ∀ s : PrefetchState, disabledClear s → disabledClear (ops.foldl stepOp s) := by
  induction ops with
  | nil => intro s h; exact h
  | cons op rest ih =>
      intro s h
      exact ih (stepOp s op) (disabledClear_stepOp s op h)

theorem disabledClear_after_stop (s : PrefetchState) (ops : List FacadeOp) :
    disabledClear (ops.foldl stepOp (stepOp s .stopPrefetch)) :=
  disabledClear_foldl_stepOp ops (stepOp s .stopPrefetch) ⟨rfl, rfl⟩

/-- Claim C6: after `stopPrefetch`, whatever further facade operations run
(reads, tree fetches, straggler walk firings, further stops,
pass-throughs), the cache stays empty and the service stays disabled, and
every subsequent `read(B)` — including for a `B` cached and resolved
before the call — delegates directly to the underlying storage read,
never observes a pre-disable cache entry, and never repopulates the
cache. -/
theorem stop_prefetch_irreversible (s : PrefetchState) (ops : List FacadeOp) :
    (ops.foldl stepOp (stepOp s .stopPrefetch)).prefetchEnabled = false ∧
    (ops.foldl stepOp (stepOp s .stopPrefetch)).prefetchCache = [] ∧
    ∀ B : String,
      cachedRead (ops.foldl stepOp (stepOp s .stopPrefetch)) B
          = storageRead (ops.foldl stepOp (stepOp s .stopPrefetch)) B ∧
        (cachedRead (ops.foldl stepOp (stepOp s .stopPrefetch)) B).2.prefetchCache = [] := by
  have h := disabledClear_after_stop s ops
  refine ⟨h.1, h.2, fun B => ⟨cachedRead_disabled _ B h.1, ?_⟩⟩
  rw [cachedRead_disabled _ B h.1]
  exact h.2

/-- Claim C10: after `stopPrefetch` has been called (and any further
facade activity), a `getSnapshotTree` call no longer triggers any
prefetch walk: the enabled flag is consulted at the time of the call, so
no then-handler is attached, the underlying storage promise is returned
to the caller unchanged, the cache state is untouched, and the settling
of the fetched tree runs no walker pass at all. -/
theorem getSnapshotTree_after_stop_no_walk (s : PrefetchState) (ops : List FacadeOp) :
    (getSnapshotTreeCall (ops.foldl stepOp (stepOp s .stopPrefetch))).2.1 = false ∧
    (getSnapshotTreeCall (ops.foldl stepOp (stepOp s .stopPrefetch))).1
        = (ops.foldl stepOp (stepOp s .stopPrefetch)).nextPromise ∧
    (getSnapshotTreeCall (ops.foldl stepOp (stepOp s .stopPrefetch))).2.2.prefetchCache
        = (ops.foldl stepOp (stepOp s .stopPrefetch)).prefetchCache ∧
    ∀ tree : Option ISnapshotTree,
      settleTreePromise (getSnapshotTreeCall (ops.foldl stepOp (stepOp s .stopPrefetch))).2.1
          tree (getSnapshotTreeCall (ops.foldl stepOp (stepOp s .stopPrefetch))).2.2
        = (getSnapshotTreeCall (ops.foldl stepOp (stepOp s .stopPrefetch))).2.2 := by
  have h := disabledClear_after_stop s ops
  refine ⟨h.1, rfl, rfl, fun tree => ?_⟩
  rw [show (getSnapshotTreeCall (ops.foldl stepOp (stepOp s .stopPrefetch))).2.1
        = (ops.foldl stepOp (stepOp s .stopPrefetch)).prefetchEnabled from rfl, h.1]
  rfl

/-! ### The walk's classification on concrete trees -/

/-- Claim C3: on a snapshot tree whose blobs are
`{".attr": b1, "header": b2, "quorumMembers": b3, "content.txt": b4}`,
the prefetch walk issues cache reads for `b1`, `b2`, `b3` inline during
classification (dot-name, exact `"header"`, `"quorum"`-start), collects
`b4` into the shared secondary accumulator, and issues the cache read for
`b4` only after the full traversal, as the sole trailing secondary
event. -/
theorem eager_vs_secondary_classification :
    prefetchTreeCore
        (.mk [(".attr", some "b1"), ("header", some "b2"),
              ("quorumMembers", some "b3"), ("content.txt", some "b4")] [] []) []
      = ([.eagerRead "b1", .eagerRead "b2", .eagerRead "b3"], ["b4"]) ∧
    prefetchTree
        (.mk [(".attr", some "b1"), ("header", some "b2"),
              ("quorumMembers", some "b3"), ("content.txt", some "b4")] [] [])
      = [.eagerRead "b1", .eagerRead "b2", .eagerRead "b3", .secondaryRead "b4"] := by
  constructor
  · simp only [prefetchTreeCore, prefetchTreeCoreList]
    decide
  · simp only [prefetchTree, prefetchTreeCore, prefetchTreeCoreList]
    decide

/-- Claim C2 is violated by the code: the blob name `"deltas"` is not
eager, and the exclusion test `blobKey[0] !== "deltas"` compares the
one-character string `blobKey[0]` against the six-character literal
`"deltas"`, which never succeeds — so the walk adds the blob to the
secondary list and issues a cache read for it after traversal, rather
than excluding it. -/
theorem deltas_blob_is_prefetched :
    isEagerBlobKey "deltas" = false ∧
    isNotDeltasFirstChar "deltas" = true ∧
    (prefetchTreeCore (.mk [("deltas", some "d1")] [] []) []).2 = ["d1"] ∧
    prefetchTree (.mk [("deltas", some "d1")] [] []) = [.secondaryRead "d1"] := by
  refine ⟨by decide, by decide, ?_, ?_⟩
  · simp only [prefetchTreeCore, prefetchTreeCoreList]
    decide
  · simp only [prefetchTree, prefetchTreeCore, prefetchTreeCoreList]
    decide

end Prefetch

namespace SocketStorage

/-! ## The document connection orchestrator (`DocumentService.connect`)

The external collaborators — blob storage's `getHeader`, the transport
handshake acknowledgement, delta storage's `get`, and asymmetric key
generation — are supplied as an environment of oracles.  Each of the
three joined branches also carries an abstract settlement time, so that
`Promise.all`'s reject-with-the-first-rejection semantics can be stated:
among rejecting branches the one with the smallest time wins (the event
loop never settles two promises at the same instant; on equal times the
model keeps the branch listed first in the `Promise.all` array). -/

structure IDocumentAttributes : Type where
  minimumSequenceNumber : Int
  sequenceNumber : Int
  deriving DecidableEq, Repr

structure IDocumentHeader : Type where
  attributes : IDocumentAttributes
  distributedObjects : List String
  transformedMessages : List String
  tree : Option String
  deriving DecidableEq, Repr

/-- The built-in default header used when no version is supplied. -/
def emptyHeader : IDocumentHeader :=
  { attributes := { minimumSequenceNumber := 0, sequenceNumber := 0 }
    distributedObjects := []
    transformedMessages := []
    tree := none }

/-- The outbound handshake message (`messages.IConnect`). -/
structure IConnect : Type where
  id : String
  privateKey : String
  publicKey : String
  encrypted : Bool
  deriving DecidableEq, Repr

/-- The handshake acknowledgement (`messages.IConnected`). -/
structure IConnected : Type where
  clientId : String
  existing : Bool
  privateKey : String
  publicKey : String
  deriving DecidableEq, Repr

structure DocumentDeltaConnection : Type where
  documentId : String
  clientId : String
  encrypted : Bool
  privateKey : String
  publicKey : String
  deriving DecidableEq, Repr

structure DocumentDeltaStorageService : Type where
  documentId : String
  deriving DecidableEq, Repr

structure DocumentStorageService : Type where
  documentId : String
  version : Option String
  deriving DecidableEq, Repr

/-- The immutable session descriptor, fields in constructor order. -/
structure Document : Type where
  documentId : String
  clientId : String
  existing : Bool
  version : Option String
  deltaConnection : DocumentDeltaConnection
  documentStorageService : DocumentStorageService
  deltaStorageService : DocumentDeltaStorageService
  distributedObjects : List String
  pendingDeltas : List String
  transformedMessages : List String
  sequenceNumber : Int
  minimumSequenceNumber : Int
  tree : Option String
  deriving DecidableEq, Repr

/-- A branch's rejection, if any, tagged with its settlement time. -/
def rejectionOf {α : Type} (r : Except String α) (t : Nat) : Option (Nat × String) :=
  match r with
  | .ok _ => none
  | .error e => some (t, e)

/-- The earliest rejection in a list of branch rejections; ties keep the
branch listed first. -/
def firstRejection : List (Option (Nat × String)) → Option (Nat × String)
  | [] => none
  | none :: rest => firstRejection rest
  | some (t, e) :: rest =>
      match firstRejection rest with
      | none => some (t, e)
      | some (t', e') => if t' < t then some (t', e') else some (t, e)

/-- `Promise.all([a, b, c])`: resolves with the triple when all three
branches resolve; rejects with the error of the earliest-rejecting
branch otherwise. -/
def promiseAll3 {α β γ : Type} (a : Except String α) (ta : Nat)
    (b : Except String β) (tb : Nat) (c : Except String γ) (tc : Nat) :
    Except String (α × β × γ) :=
  match a, b, c with
  | .ok x, .ok y, .ok z => .ok (x, y, z)
  | _, _, _ =>
      match firstRejection [rejectionOf a ta, rejectionOf b tb, rejectionOf c tc] with
      | some (_, e) => .error e
      | none => .error "unreachable: some branch rejected"

/-- The external collaborators of `DocumentService.connect`. -/
structure ConnectEnv : Type where
  getHeader : String → String → Except String (Option IDocumentHeader)
  headerTime : Nat
  handshake : IConnect → Except String IConnected
  handshakeTime : Nat
  deltaGet : String → Int → Except String (List String)
  deltaTime : Nat
  generatedKeys : String × String

/-- Key setup: `generateAsymmetricKeys` when encrypted, else empty keys. -/
def connectKeys (env : ConnectEnv) (encrypted : Bool) : String × String :=
  if encrypted then env.generatedKeys else ("", "")

/-- The outbound `connectDocument` message. -/
def connectMessage (env : ConnectEnv) (id : String) (encrypted : Bool) : IConnect :=
  { id := id
    privateKey := (connectKeys env encrypted).1
    publicKey := (connectKeys env encrypted).2
    encrypted := encrypted }

/-- The header branch: fetch from blob storage when a version is given,
else resolve immediately with the built-in default header; also reports
how many storage calls for the header were made. -/
def headerBranch (env : ConnectEnv) (id : String) (version : Option String) :
    Except String (Option IDocumentHeader) × Nat :=
  match version with
  | some v => (env.getHeader id v, 1)
  | none => (Except.ok (some emptyHeader), 0)

/-- `header ? header.attributes.sequenceNumber : 0` — the lower bound of
the pending-delta fetch. -/
def headerSeq (hv : Option IDocumentHeader) : Int :=
  match hv with
  | some h => h.attributes.sequenceNumber
  | none => 0

/-- The pending-delta branch `headerP.then(...)`: once the header branch
resolves, fetch deltas from the header's sequence number; a header
rejection propagates unchanged and necessarily settles after the header
does.  Returns (branch outcome, settlement time, lower bound used if a
fetch was issued). -/
def pendingDeltasBranch (env : ConnectEnv) (id : String)
    (headerR : Except String (Option IDocumentHeader)) :
    Except String (List String) × Nat × Option Int :=
  match headerR with
  | .ok hv => (env.deltaGet id (headerSeq hv), env.deltaTime, some (headerSeq hv))
  | .error e => (.error e, env.headerTime + 1, none)

/-- The outcome of a `connect` invocation, with its observable storage
effects. -/
structure ConnectResult : Type where
  headerStorageCalls : Nat
  deltaFetchFrom : Option Int
  result : Except String Document

/-- `DocumentService.connect`: start the header fetch (or default
header), the transport handshake, and the header-dependent pending-delta
fetch; join the three; on success assemble the immutable `Document`.  A
`null` header that joined successfully faults at assembly when its
members are dereferenced, as in the source. -/
def connect (env : ConnectEnv) (id : String) (version : Option String)
    (connectFlag : Bool) (encrypted : Bool) : ConnectResult :=
  let header := headerBranch env id version
  let connectionR := env.handshake (connectMessage env id encrypted)
  let pending := pendingDeltasBranch env id header.1
  let joined :=
    promiseAll3 header.1 env.headerTime connectionR env.handshakeTime
      pending.1 pending.2.1
  let result : Except String Document :=
    match joined with
    | .error e => .error e
    | .ok (hv, conn, pendingDeltas) =>
        match hv with
        | none => .error "TypeError: cannot read properties of null header"
        | some h =>
            .ok
              { documentId := id
                clientId := conn.clientId
                existing := conn.existing
                version := version
                deltaConnection :=
                  { documentId := id
                    clientId := conn.clientId
                    encrypted := encrypted
                    privateKey := conn.privateKey
                    publicKey := conn.publicKey }
                documentStorageService := { documentId := id, version := version }
                deltaStorageService := { documentId := id }
                distributedObjects := h.distributedObjects
                pendingDeltas := pendingDeltas
                transformedMessages := h.transformedMessages
                sequenceNumber := h.attributes.sequenceNumber
                minimumSequenceNumber := h.attributes.minimumSequenceNumber
                tree := h.tree }
  { headerStorageCalls := header.2
    deltaFetchFrom := pending.2.2
    result := result }

/-- Claim C4: `connect` with an absent version performs no storage call
for the header and, when the handshake and the pending-delta fetch (issued
with lower bound 0) succeed, yields a `Document` whose `sequenceNumber`
and `minimumSequenceNumber` are 0, whose `distributedObjects` and
`transformedMessages` are empty, whose `tree` is absent, and whose
`pendingDeltas` are exactly the deltas fetched starting at sequence
number 0. -/
theorem connect_default_header (env : ConnectEnv) (id : String)
    (connectFlag encrypted : Bool) (conn : IConnected) (pd : List String)
    (hconn : env.handshake (connectMessage env id encrypted) = Except.ok conn)
    (hdelta : env.deltaGet id 0 = Except.ok pd) :
    (connect env id none connectFlag encrypted).headerStorageCalls = 0 ∧
    (connect env id none connectFlag encrypted).deltaFetchFrom = some 0 ∧
    ∃ doc : Document,
      (connect env id none connectFlag encrypted).result = Except.ok doc ∧
      doc.sequenceNumber = 0 ∧
      doc.minimumSequenceNumber = 0 ∧
      doc.distributedObjects = [] ∧
      doc.transformedMessages = [] ∧
      doc.tree = none ∧
      doc.pendingDeltas = pd := by
  have hres : (connect env id none connectFlag encrypted).result =
      Except.ok
        ⟨id, conn.clientId, conn.existing, none,
         ⟨id, conn.clientId, encrypted, conn.privateKey, conn.publicKey⟩,
         ⟨id, none⟩, ⟨id⟩, [], pd, [], 0, 0, none⟩ := by
    simp [connect, headerBranch, pendingDeltasBranch, headerSeq, emptyHeader,
      hconn, hdelta, promiseAll3]
  refine ⟨rfl, ?_, ?_⟩
  · simp [connect, pendingDeltasBranch, headerBranch, headerSeq, emptyHeader]
  · exact ⟨_, hres, rfl, rfl, rfl, rfl, rfl, rfl⟩

/-- Claim C4 witness. -/
theorem connect_default_header_witness :
    ConnectEnv.handshake
        ⟨fun _ _ => Except.ok none, 0, fun _ => Except.ok ⟨"client", false, "", ""⟩, 0,
         fun _ _ => Except.ok ["delta0"], 0, ("", "")⟩
        (connectMessage
          ⟨fun _ _ => Except.ok none, 0, fun _ => Except.ok ⟨"client", false, "", ""⟩, 0,
           fun _ _ => Except.ok ["delta0"], 0, ("", "")⟩ "doc" false)
      = Except.ok ⟨"client", false, "", ""⟩ ∧
    ConnectEnv.deltaGet
        ⟨fun _ _ => Except.ok none, 0, fun _ => Except.ok ⟨"client", false, "", ""⟩, 0,
         fun _ _ => Except.ok ["delta0"], 0, ("", "")⟩ "doc" 0
      = Except.ok ["delta0"] ∧
    ((connect
        ⟨fun _ _ => Except.ok none, 0, fun _ => Except.ok ⟨"client", false, "", ""⟩, 0,
         fun _ _ => Except.ok ["delta0"], 0, ("", "")⟩
        "doc" none true false).headerStorageCalls = 0 ∧
      (connect
        ⟨fun _ _ => Except.ok none, 0, fun _ => Except.ok ⟨"client", false, "", ""⟩, 0,
         fun _ _ => Except.ok ["delta0"], 0, ("", "")⟩
        "doc" none true false).deltaFetchFrom = some 0 ∧
      ∃ doc : Document,
        (connect
          ⟨fun _ _ => Except.ok none, 0, fun _ => Except.ok ⟨"client", false, "", ""⟩, 0,
           fun _ _ => Except.ok ["delta0"], 0, ("", "")⟩
          "doc" none true false).result = Except.ok doc ∧
        doc.sequenceNumber = 0 ∧
        doc.minimumSequenceNumber = 0 ∧
        doc.distributedObjects = [] ∧
        doc.transformedMessages = [] ∧
        doc.tree = none ∧
        doc.pendingDeltas = ["delta0"]) :=
  ⟨rfl, rfl,
   connect_default_header
     ⟨fun _ _ => Except.ok none, 0, fun _ => Except.ok ⟨"client", false, "", ""⟩, 0,
      fun _ _ => Except.ok ["delta0"], 0, ("", "")⟩
     "doc" true false ⟨"client", false, "", ""⟩ ["delta0"] rfl rfl⟩

/-- Claim C5: if the transport handshake branch rejects with error `e`
while the header branch has succeeded (with or without a version), and
the pending-delta branch either succeeds or settles no earlier than the
handshake's rejection, then the whole `connect` fails with exactly `e`
and no `Document` is returned. -/
theorem connect_handshake_rejection (env : ConnectEnv) (id : String)
    (version : Option String) (connectFlag encrypted : Bool)
    (hv : Option IDocumentHeader) (e : String)
    (hhdr : (headerBranch env id version).1 = Except.ok hv)
    (hhs : env.handshake (connectMessage env id encrypted) = Except.error e)
    (hdelta : (∃ pd, env.deltaGet id (headerSeq hv) = Except.ok pd) ∨
      env.handshakeTime ≤ env.deltaTime) :
    (connect env id version connectFlag encrypted).result = Except.error e ∧
    ∀ doc : Document,
      (connect env id version connectFlag encrypted).result ≠ Except.ok doc := by
  have hjoin :
      promiseAll3 (headerBranch env id version).1 env.headerTime
        (env.handshake (connectMessage env id encrypted)) env.handshakeTime
        (pendingDeltasBranch env id (headerBranch env id version).1).1
        (pendingDeltasBranch env id (headerBranch env id version).1).2.1
      = (Except.error e : Except String (Option IDocumentHeader × IConnected × List String)) := by
    rw [hhdr, hhs]
    rcases hdelta with ⟨pd, hpd⟩ | htime
    · simp [pendingDeltasBranch, hpd, promiseAll3, firstRejection, rejectionOf]
    · cases hget : env.deltaGet id (headerSeq hv) with
      | ok pd => simp [pendingDeltasBranch, hget, promiseAll3, firstRejection, rejectionOf]
      | error e' =>
          simp only [pendingDeltasBranch, hget, promiseAll3, firstRejection, rejectionOf]
          rw [if_neg (by omega)]
  have hmain : (connect env id version connectFlag encrypted).result = Except.error e := by
    simp only [connect, hjoin]
  exact ⟨hmain, fun doc h => by rw [hmain] at h; exact Except.noConfusion h⟩

/-- Claim C5 witness. -/
theorem connect_handshake_rejection_witness :
    (headerBranch
        ⟨fun _ _ => Except.ok none, 0, fun _ => Except.error "handshake down", 1,
         fun _ _ => Except.ok [], 2, ("", "")⟩ "doc" none).1
      = Except.ok (some emptyHeader) ∧
    ConnectEnv.handshake
        ⟨fun _ _ => Except.ok none, 0, fun _ => Except.error "handshake down", 1,
         fun _ _ => Except.ok [], 2, ("", "")⟩
        (connectMessage
          ⟨fun _ _ => Except.ok none, 0, fun _ => Except.error "handshake down", 1,
           fun _ _ => Except.ok [], 2, ("", "")⟩ "doc" false)
      = Except.error "handshake down" ∧
    ((connect
        ⟨fun _ _ => Except.ok none, 0, fun _ => Except.error "handshake down", 1,
         fun _ _ => Except.ok [], 2, ("", "")⟩
        "doc" none true false).result = Except.error "handshake down" ∧
      ∀ doc : Document,
        (connect
          ⟨fun _ _ => Except.ok none, 0, fun _ => Except.error "handshake down", 1,
           fun _ _ => Except.ok [], 2, ("", "")⟩
          "doc" none true false).result ≠ Except.ok doc) :=
  ⟨rfl, rfl,
   connect_handshake_rejection
     ⟨fun _ _ => Except.ok none, 0, fun _ => Except.error "handshake down", 1,
      fun _ _ => Except.ok [], 2, ("", "")⟩
     "doc" none true false (some emptyHeader) "handshake down" rfl rfl
     (Or.inl ⟨[], rfl⟩)⟩

/-! ## The event-routing registry (`DocumentService.registerForEvent`)

`eventMap` is the three-level routing table
event name → document (session) identifier → client (subscriber)
identifier → connection; `listenerInstalls` logs every physical
`socket.on` listener installation, in order. -/

structure RegistryState : Type where
  eventMap : List (String × List (String × List (String × DocumentDeltaConnection)))
  listenerInstalls : List String
  deriving DecidableEq, Repr

/-- `DocumentService.registerForEvent(event, connection)`: install a
physical listener on the first registration for `event`, create the
object map entry for the connection's document as needed, then store the
connection at `(event, documentId, clientId)`, replacing any prior
subscriber at that triple. -/
def registerForEvent (s : RegistryState) (event : String)
    (connection : DocumentDeltaConnection) : RegistryState :=
  let afterListen :=
    match alGet s.eventMap event with
    | some _ => (s.eventMap, s.listenerInstalls)
    | none => (alSet s.eventMap event [], s.listenerInstalls ++ [event])
  let objectMap := (alGet afterListen.1 event).getD []
  let objectMap2 :=
    match alGet objectMap connection.documentId with
    | some _ => objectMap
    | none => alSet objectMap connection.documentId []
  let connectionMap := (alGet objectMap2 connection.documentId).getD []
  { eventMap :=
      alSet afterListen.1 event
        (alSet objectMap2 connection.documentId
          (alSet connectionMap connection.clientId connection))
    listenerInstalls := afterListen.2 }

/-- One registration step over a `(event, connection)` pair. -/
def regStep (s : RegistryState) (call : String × DocumentDeltaConnection) :
    RegistryState :=
  registerForEvent s call.1 call.2

/-- Routing-table lookup at a triple. -/
def route (s : RegistryState) (event docId clientId : String) :
    Option DocumentDeltaConnection :=
  (alGet s.eventMap event).bind
    (fun om => (alGet om docId).bind (fun cm => alGet cm clientId))

/-- The most recently registered subscriber among `calls` whose triple is
exactly `(e, d, c)` — the claim's specification of the routing table. -/
def lastMatch (calls : List (String × DocumentDeltaConnection)) (e d c : String) :
    Option DocumentDeltaConnection :=
  match calls with
  | [] => none
  | p :: rest =>
      match lastMatch rest e d c with
      | some q => some q
      | none =>
          if p.1 = e ∧ p.2.documentId = d ∧ p.2.clientId = c then some p.2 else none

theorem alSet_alSet_same {α β : Type} [DecidableEq α] (m : List (α × β)) (k : α) (v w : β) :
    alSet (alSet m k v) k w = alSet m k w := by
  induction m with
  | nil => simp [alSet]
  | cons p rest ih =>
      obtain ⟨k', v'⟩ := p
      by_cases h : k' = k
      · simp [alSet, h]
      · simp [alSet, h, ih]

/-- The composite effect of one registration on the routing table: set
the connection at its triple, materializing the intermediate levels. -/
theorem registerForEvent_eventMap (s : RegistryState) (event : String)
    (connection : DocumentDeltaConnection) :
    (registerForEvent s event connection).eventMap =
      alSet s.eventMap event
        (alSet ((alGet s.eventMap event).getD []) connection.documentId
          (alSet
            ((alGet ((alGet s.eventMap event).getD []) connection.documentId).getD [])
            connection.clientId connection)) := by
  cases hev : alGet s.eventMap event with
  | some om =>
      simp only [registerForEvent, hev, Option.getD_some]
      cases hdoc : alGet om connection.documentId with
      | some cm => simp [hdoc]
      | none =>
          simp only [hdoc, Option.getD_none]
          rw [alGet_alSet_same]
          rw [alSet_alSet_same]
          simp
  | none =>
      simp only [registerForEvent, hev, Option.getD_none]
      rw [alGet_alSet_same]
      simp [alGet, alSet, alSet_alSet_same]

theorem route_registerForEvent (s : RegistryState) (event : String)
    (connection : DocumentDeltaConnection) (e d c : String) :
    route (registerForEvent s event connection) e d c =
      if event = e ∧ connection.documentId = d ∧ connection.clientId = c then
        some connection
      else route s e d c := by
  simp only [route, registerForEvent_eventMap]
  by_cases he : event = e
  · subst he
    rw [alGet_alSet_same]
    simp only [Option.some_bind]
    by_cases hd : connection.documentId = d
    · subst hd
      rw [alGet_alSet_same]
      simp only [Option.some_bind]
      by_cases hc : connection.clientId = c
      · subst hc
        rw [alGet_alSet_same]
        simp
      · rw [alGet_alSet_other _ _ _ _ hc]
        simp only [hc, and_false, if_false, true_and]
        cases hev : alGet s.eventMap event with
        | none => simp [alGet]
        | some om =>
            simp only [Option.getD_some, Option.some_bind]
            cases hdoc : alGet om connection.documentId with
            | none => simp [alGet]
            | some cm => simp
    · rw [alGet_alSet_other _ _ _ _ hd]
      simp only [hd, false_and, and_false, if_false, true_and]
      cases hev : alGet s.eventMap event with
      | none => simp [alGet]
      | some om => simp
  · rw [alGet_alSet_other _ _ _ _ he]
    simp [he]

theorem eventKey_registerForEvent (s : RegistryState) (event : String)
    (connection : DocumentDeltaConnection) (e : String) :
    (alGet (registerForEvent s event connection).eventMap e).isSome =
      ((event = e : Bool) || (alGet s.eventMap e).isSome) := by
  rw [registerForEvent_eventMap]
  by_cases he : event = e
  · subst he
    rw [alGet_alSet_same]
    simp
  · rw [alGet_alSet_other _ _ _ _ he]
    simp [he]

theorem installs_registerForEvent (s : RegistryState) (event : String)
    (connection : DocumentDeltaConnection) :
    (registerForEvent s event connection).listenerInstalls =
      match alGet s.eventMap event with
      | some _ => s.listenerInstalls
      | none => s.listenerInstalls ++ [event] := by
  cases hev : alGet s.eventMap event with
  | none => simp [registerForEvent, hev]
  | some om => simp [registerForEvent, hev]

/-- The listener-count invariant: an event name has exactly one physical
listener installed exactly when it has an entry in the routing table. -/
def listenerInv (s : RegistryState) : Prop :=
  ∀ e : String,
    s.listenerInstalls.count e = if (alGet s.eventMap e).isSome then 1 else 0

theorem listenerInv_registerForEvent (s : RegistryState) (event : String)
    (connection : DocumentDeltaConnection) (h : listenerInv s) :
    listenerInv (registerForEvent s event connection) := by
  intro e
  rw [installs_registerForEvent]
  simp only [eventKey_registerForEvent]
  cases hev : alGet s.eventMap event with
  | some om =>
      by_cases he : event = e
      · subst he
        rw [h event, hev]
        simp
      · rw [h e]
        simp [he]
  | none =>
      by_cases he : event = e
      · subst he
        rw [List.count_append, h event, hev]
        simp
      · rw [List.count_append, h e]
        simp [he, Ne.symm he]

theorem listenerInv_foldl (calls : List (String × DocumentDeltaConnection)) :
    ∀ s : RegistryState, listenerInv s → listenerInv (calls.foldl regStep s) := by
  induction calls with
  | nil => intro s h; exact h
  | cons p rest ih =>
      intro s h
      exact ih (regStep s p) (listenerInv_registerForEvent s p.1 p.2 h)

theorem eventKey_foldl (calls : List (String × DocumentDeltaConnection)) :
    ∀ (s : RegistryState) (e : String),
      (alGet (calls.foldl regStep s).eventMap e).isSome =
        (calls.any (fun c => c.1 = e) || (alGet s.eventMap e).isSome) := by
  induction calls with
  | nil => intro s e; simp
  | cons p rest ih =>
      intro s e
      rw [List.foldl_cons, ih (regStep s p) e]
      simp only [regStep]
      rw [eventKey_registerForEvent]
      simp only [List.any_cons]
      cases hpe : (decide (p.1 = e)) <;>
        cases hrest : (rest.any fun c => decide (c.1 = e)) <;> simp [hpe, hrest]

theorem route_foldl (calls : List (String × DocumentDeltaConnection)) :
    ∀ (s : RegistryState) (e d c : String),
      route (calls.foldl regStep s) e d c =
        match lastMatch calls e d c with
        | some q => some q
        | none => route s e d c := by
  induction calls with
  | nil => intro s e d c; rfl
  | cons p rest ih =>
      intro s e d c
      show route (rest.foldl regStep (regStep s p)) e d c = _
      rw [ih (regStep s p) e d c]
      show (match lastMatch rest e d c with
            | some q => some q
            | none => route (registerForEvent s p.1 p.2) e d c) = _
      rw [route_registerForEvent]
      cases hlast : lastMatch rest e d c with
      | some q => simp [lastMatch, hlast]
      | none =>
          by_cases hm : p.1 = e ∧ p.2.documentId = d ∧ p.2.clientId = c
          · simp [lastMatch, hlast, hm]
          · simp [lastMatch, hlast, hm]

/-- Claim C9: starting from an empty registry, after any sequence of
`registerForEvent` calls, each event name that appears in at least one
call has exactly one physical transport listener installed (and names
that never appear have none), and the routing table maps each triple
(event, document identifier, client identifier) to the most recently
registered connection with exactly that triple. -/
theorem registry_one_listener_last_registration
    (calls : List (String × DocumentDeltaConnection)) :
    (∀ e : String,
      (calls.foldl regStep ⟨[], []⟩).listenerInstalls.count e =
        if calls.any (fun c => c.1 = e) then 1 else 0) ∧
    (∀ e d c : String,
      route (calls.foldl regStep ⟨[], []⟩) e d c = lastMatch calls e d c) := by
  constructor
  · intro e
    have hinv : listenerInv (⟨[], []⟩ : RegistryState) := by
      intro e'
      simp [alGet, List.count_nil]
    have h := listenerInv_foldl calls ⟨[], []⟩ hinv e
    rw [h, eventKey_foldl calls ⟨[], []⟩ e]
    simp only [alGet, Option.isSome_none, Bool.or_false]
  · intro e d c
    rw [route_foldl calls ⟨[], []⟩ e d c]
    cases hlast : lastMatch calls e d c with
    | some q => rfl
    | none => rfl

/-! ## Inbound delivery with deep copies (`DocumentService.handleMessage`)

To state that sibling subscribers never observe each other's mutations,
the payload is modelled as a JS object graph: a value is a primitive or a
reference into a heap of field maps.  Mutation (`setField`) and
observation (`readPath`) act on that heap. -/

/-- A JS runtime value: a primitive, or a reference to a heap object. -/
inductive JVal : Type where
  | prim (s : String)
  | ref (a : Nat)
  deriving DecidableEq, Repr

/-- A heap object: an insertion-ordered field map. -/
abbrev JObj : Type := List (String × JVal)

/-- The object heap: addresses to objects. -/
abbrev Heap : Type := List (Nat × JObj)

mutual

/-- Modelled from the spec: the multiplexer delivers each subscriber "an
independent deep copy of the payload" through the external library
function `lodash.cloneDeep`, whose code is not part of this repository;
its contract is modelled here: recursively copy every object reachable
from the value into fresh addresses (allocated from `n` upward), leaving
every existing heap entry untouched.  `fuel` bounds the recursion
depth. -/
def cloneVal : Nat → Heap → Nat → JVal → Option (JVal × Heap × Nat)
  | _, h, n, .prim s => some (.prim s, h, n)
  | 0, _, _, .ref _ => none
  | fuel + 1, h, n, .ref a =>
      match alGet h a with
      | none => none
      | some obj =>
          match cloneObj fuel h (n + 1) obj with
          | none => none
          | some (fields, h', n') => some (.ref n, alSet h' n fields, n')

/-- Clone every field value of an object in order. -/
def cloneObj : Nat → Heap → Nat → JObj → Option (JObj × Heap × Nat)
  | _, h, n, [] => some ([], h, n)
  | fuel, h, n, (f, v) :: rest =>
      match cloneVal fuel h n v with
      | none => none
      | some (v', h', n') =>
          match cloneObj fuel h' n' rest with
          | none => none
          | some (fields, h'', n'') => some ((f, v') :: fields, h'', n'')

end

/-- The heap addresses a value refers to directly. -/
def valRefs : JVal → List Nat
  | .prim _ => []
  | .ref a => [a]

/-- The heap addresses an object's fields refer to directly. -/
def objRefs (obj : JObj) : List Nat :=
  obj.flatMap (fun fv => valRefs fv.2)

/-- `v` heads a closed heap fragment within the address range `[lo, hi)`:
its direct references lie in the range, and every address in the range is
allocated to an object whose references stay in the range. -/
def fragClosed (h : Heap) (v : JVal) (lo hi : Nat) : Prop :=
  (∀ a ∈ valRefs v, lo ≤ a ∧ a < hi) ∧
  (∀ a, lo ≤ a → a < hi →
    ∃ obj, alGet h a = some obj ∧ ∀ b ∈ objRefs obj, lo ≤ b ∧ b < hi)

theorem fragClosed_agree (h h2 : Heap) (v : JVal) (lo hi : Nat)
    (hf : fragClosed h v lo hi)
    (hag : ∀ a, lo ≤ a → a < hi → alGet h2 a = alGet h a) :
    fragClosed h2 v lo hi := by
  refine ⟨hf.1, fun a h1 h2' => ?_⟩
  obtain ⟨obj, hobj, hrefs⟩ := hf.2 a h1 h2'
  exact ⟨obj, by rw [hag a h1 h2']; exact hobj, hrefs⟩

/-- Specification of the deep copy: it allocates exactly the fresh range
`[n, n')`, leaves every other address untouched, and the copy heads a
closed fragment of that range. -/
theorem clone_spec (fuel : Nat) :
    (∀ h n v v' h' n', cloneVal fuel h n v = some (v', h', n') →
      n ≤ n' ∧ (∀ a, a < n ∨ n' ≤ a → alGet h' a = alGet h a) ∧
      fragClosed h' v' n n') ∧
    (∀ obj h n fields h' n', cloneObj fuel h n obj = some (fields, h', n') →
      n ≤ n' ∧ (∀ a, a < n ∨ n' ≤ a → alGet h' a = alGet h a) ∧
      (∀ b ∈ objRefs fields, n ≤ b ∧ b < n') ∧
      (∀ a, n ≤ a → a < n' →
        ∃ o, alGet h' a = some o ∧ ∀ b ∈ objRefs o, n ≤ b ∧ b < n')) := by
  induction fuel with
  | zero =>
      have hval : ∀ h n v v' h' n', cloneVal 0 h n v = some (v', h', n') →
          n ≤ n' ∧ (∀ a, a < n ∨ n' ≤ a → alGet h' a = alGet h a) ∧
          fragClosed h' v' n n' := by
        intro h n v v' h' n' heq
        cases v with
        | prim s =>
            simp only [cloneVal, Option.some_inj] at heq
            obtain ⟨rfl, rfl, rfl⟩ := heq
            exact ⟨le_refl n, fun a _ => rfl,
              ⟨by simp [valRefs], fun a h1 h2 => absurd h1 (by omega)⟩⟩
        | ref a => simp [cloneVal] at heq
      refine ⟨hval, ?_⟩
      intro obj
      induction obj with
      | nil =>
          intro h n fields h' n' heq
          simp only [cloneObj, Option.some_inj] at heq
          obtain ⟨rfl, rfl, rfl⟩ := heq
          exact ⟨le_refl n, fun a _ => rfl, by simp [objRefs],
            fun a h1 h2 => absurd h1 (by omega)⟩
      | cons fv rest ih =>
          intro h n fields h' n' heq
          obtain ⟨f, v⟩ := fv
          simp only [cloneObj] at heq
          cases h1 : cloneVal 0 h n v with
          | none => simp only [h1] at heq; exact Option.noConfusion heq
          | some t1 =>
              obtain ⟨v3, h3, n3⟩ := t1
              simp only [h1] at heq
              cases h2 : cloneObj 0 h3 n3 rest with
              | none => simp only [h2] at heq; exact Option.noConfusion heq
              | some t2 =>
                  obtain ⟨fields4, h4, n4⟩ := t2
                  simp only [h2] at heq
                  simp only [Option.some_inj] at heq
                  obtain ⟨rfl, rfl, rfl⟩ := heq
                  obtain ⟨hle1, hfr1, hcl1⟩ := hval h n v v3 h3 n3 h1
                  obtain ⟨hle2, hfr2, hrefs2, halloc2⟩ := ih h3 n3 _ _ _ h2
                  refine ⟨le_trans hle1 hle2, ?_, ?_, ?_⟩
                  · intro a ha
                    rw [hfr2 a (by omega), hfr1 a (by omega)]
                  · intro b hb
                    simp only [objRefs, List.flatMap_cons, List.mem_append] at hb
                    rcases hb with hb | hb
                    · have := hcl1.1 b hb
                      omega
                    · have := hrefs2 b hb
                      omega
                  · intro a h1' h2'
                    by_cases hlt : a < n3
                    · obtain ⟨o, ho, hrefs⟩ := hcl1.2 a h1' hlt
                      refine ⟨o, ?_, fun b hb => by have := hrefs b hb; omega⟩
                      rw [hfr2 a (by omega)]
                      exact ho
                    · obtain ⟨o, ho, hrefs⟩ := halloc2 a (by omega) h2'
                      exact ⟨o, ho, fun b hb => by have := hrefs b hb; omega⟩
  | succ fuel ih =>
      have hval : ∀ h n v v' h' n', cloneVal (fuel + 1) h n v = some (v', h', n') →
          n ≤ n' ∧ (∀ a, a < n ∨ n' ≤ a → alGet h' a = alGet h a) ∧
          fragClosed h' v' n n' := by
        intro h n v v' h' n' heq
        cases v with
        | prim s =>
            simp only [cloneVal, Option.some_inj] at heq
            obtain ⟨rfl, rfl, rfl⟩ := heq
            exact ⟨le_refl n, fun a _ => rfl,
              ⟨by simp [valRefs], fun a h1 h2 => absurd h1 (by omega)⟩⟩
        | ref a =>
            simp only [cloneVal] at heq
            cases hget : alGet h a with
            | none => simp only [hget] at heq; exact Option.noConfusion heq
            | some obj =>
                simp only [hget] at heq
                cases h2 : cloneObj fuel h (n + 1) obj with
                | none => simp only [h2] at heq; exact Option.noConfusion heq
                | some t2 =>
                    obtain ⟨fields, h3, n3⟩ := t2
                    simp only [h2] at heq
                    simp only [Option.some_inj] at heq
                    obtain ⟨rfl, rfl, rfl⟩ := heq
                    obtain ⟨hle, hfr, hrefs, halloc⟩ := ih.2 obj h (n + 1) fields h3 n' h2
                    refine ⟨by omega, ?_, ?_, ?_⟩
                    · intro b hb
                      rw [alGet_alSet_other _ _ _ _ (by omega : n ≠ b)]
                      exact hfr b (by omega)
                    · simp only [valRefs, List.mem_singleton]
                      rintro b rfl
                      omega
                    · intro b h1' h2'
                      by_cases hbn : b = n
                      · subst hbn
                        refine ⟨fields, alGet_alSet_same _ _ _, fun c hc => ?_⟩
                        have := hrefs c hc
                        omega
                      · obtain ⟨o, ho, hor⟩ := halloc b (by omega) h2'
                        refine ⟨o, ?_, fun c hc => by have := hor c hc; omega⟩
                        rw [alGet_alSet_other _ _ _ _ (by omega : n ≠ b)]
                        exact ho
      refine ⟨hval, ?_⟩
      intro obj
      induction obj with
      | nil =>
          intro h n fields h' n' heq
          simp only [cloneObj, Option.some_inj] at heq
          obtain ⟨rfl, rfl, rfl⟩ := heq
          exact ⟨le_refl n, fun a _ => rfl, by simp [objRefs],
            fun a h1 h2 => absurd h1 (by omega)⟩
      | cons fv rest ihr =>
          intro h n fields h' n' heq
          obtain ⟨f, v⟩ := fv
          simp only [cloneObj] at heq
          cases h1 : cloneVal (fuel + 1) h n v with
          | none => simp only [h1] at heq; exact Option.noConfusion heq
          | some t1 =>
              obtain ⟨v3, h3, n3⟩ := t1
              simp only [h1] at heq
              cases h2 : cloneObj (fuel + 1) h3 n3 rest with
              | none => simp only [h2] at heq; exact Option.noConfusion heq
              | some t2 =>
                  obtain ⟨fields4, h4, n4⟩ := t2
                  simp only [h2] at heq
                  simp only [Option.some_inj] at heq
                  obtain ⟨rfl, rfl, rfl⟩ := heq
                  obtain ⟨hle1, hfr1, hcl1⟩ := hval h n v v3 h3 n3 h1
                  obtain ⟨hle2, hfr2, hrefs2, halloc2⟩ := ihr h3 n3 _ _ _ h2
                  refine ⟨le_trans hle1 hle2, ?_, ?_, ?_⟩
                  · intro a ha
                    rw [hfr2 a (by omega), hfr1 a (by omega)]
                  · intro b hb
                    simp only [objRefs, List.flatMap_cons, List.mem_append] at hb
                    rcases hb with hb | hb
                    · have := hcl1.1 b hb
                      omega
                    · have := hrefs2 b hb
                      omega
                  · intro a h1' h2'
                    by_cases hlt : a < n3
                    · obtain ⟨o, ho, hrefs⟩ := hcl1.2 a h1' hlt
                      refine ⟨o, ?_, fun b hb => by have := hrefs b hb; omega⟩
                      rw [hfr2 a (by omega)]
                      exact ho
                    · obtain ⟨o, ho, hrefs⟩ := halloc2 a (by omega) h2'
                      exact ⟨o, ho, fun b hb => by have := hrefs b hb; omega⟩

/-- Observation: follow a field path from a value through the heap.
`pf` bounds the number of dereferences. -/
def readPath : Nat → Heap → JVal → List String → Option JVal
  | _, _, v, [] => some v
  | 0, _, _, _ :: _ => none
  | _ + 1, _, .prim _, _ :: _ => none
  | pf + 1, h, .ref a, f :: rest =>
      match alGet h a with
      | none => none
      | some obj =>
          match alGet obj f with
          | none => none
          | some v => readPath pf h v rest

/-- Mutation: `target.f = w` on the object at address `a` (a no-op on a
dangling address). -/
def setField (h : Heap) (a : Nat) (f : String) (w : JVal) : Heap :=
  match alGet h a with
  | none => h
  | some obj => alSet h a (alSet obj f w)

theorem setField_frame (h : Heap) (a : Nat) (f : String) (w : JVal) (b : Nat)
    (hne : b ≠ a) : alGet (setField h a f w) b = alGet h b := by
  unfold setField
  cases alGet h a with
  | none => rfl
  | some obj => exact alGet_alSet_other h a b (alSet obj f w) (fun hh => hne hh.symm)

theorem alGet_mem {α β : Type} [DecidableEq α] (m : List (α × β)) (k : α) (v : β)
    (h : alGet m k = some v) : (k, v) ∈ m := by
  induction m with
  | nil => simp [alGet] at h
  | cons p rest ih =>
      obtain ⟨k', v'⟩ := p
      by_cases hk : k' = k
      · subst hk
        simp only [alGet, if_pos trivial, eq_self_iff_true, if_true,
          Option.some_inj] at h
        subst h
        exact List.mem_cons_self _ _
      · simp only [alGet, if_neg hk] at h
        exact List.mem_cons_of_mem _ (ih h)

theorem valRefs_mem_objRefs (obj : JObj) (f : String) (v : JVal)
    (hmem : (f, v) ∈ obj) (b : Nat) (hb : b ∈ valRefs v) : b ∈ objRefs obj := by
  simp only [objRefs, List.mem_flatMap]
  exact ⟨(f, v), hmem, hb⟩

/-- Observations from a closed fragment depend only on the heap inside
the fragment's range. -/
theorem readPath_agree (pf : Nat) :
    ∀ (h h2 : Heap) (lo hi : Nat) (v : JVal) (path : List String),
      (∀ a ∈ valRefs v, lo ≤ a ∧ a < hi) →
      (∀ a, lo ≤ a → a < hi →
        ∃ obj, alGet h a = some obj ∧ ∀ b ∈ objRefs obj, lo ≤ b ∧ b < hi) →
      (∀ a, lo ≤ a → a < hi → alGet h2 a = alGet h a) →
      readPath pf h2 v path = readPath pf h v path := by
  induction pf with
  | zero =>
      intro h h2 lo hi v path _ _ _
      cases path with
      | nil => simp [readPath]
      | cons f rest => simp [readPath]
  | succ pf ih =>
      intro h h2 lo hi v path hrefs halloc hag
      cases path with
      | nil => simp [readPath]
      | cons f rest =>
          cases v with
          | prim s => simp [readPath]
          | ref a =>
              have ha : lo ≤ a ∧ a < hi := hrefs a (by simp [valRefs])
              obtain ⟨obj, hobj, hbound⟩ := halloc a ha.1 ha.2
              have h2a : alGet h2 a = some obj := by
                rw [hag a ha.1 ha.2]
                exact hobj
              simp only [readPath, hobj, h2a]
              cases hf : alGet obj f with
              | none => rfl
              | some v2 =>
                  exact ih h h2 lo hi v2 rest
                    (fun b hb => hbound b
                      (valRefs_mem_objRefs obj f v2 (alGet_mem obj f v2 hf) b hb))
                    halloc hag

/-- Every value observable from a closed fragment refers only inside the
fragment's range. -/
theorem readPath_refs (pf : Nat) :
    ∀ (h : Heap) (lo hi : Nat) (v : JVal) (path : List String) (w : JVal),
      (∀ a ∈ valRefs v, lo ≤ a ∧ a < hi) →
      (∀ a, lo ≤ a → a < hi →
        ∃ obj, alGet h a = some obj ∧ ∀ b ∈ objRefs obj, lo ≤ b ∧ b < hi) →
      readPath pf h v path = some w →
      ∀ b ∈ valRefs w, lo ≤ b ∧ b < hi := by
  induction pf with
  | zero =>
      intro h lo hi v path w hrefs _ heq
      cases path with
      | nil =>
          simp only [readPath, Option.some_inj] at heq
          subst heq
          exact hrefs
      | cons f rest => simp [readPath] at heq
  | succ pf ih =>
      intro h lo hi v path w hrefs halloc heq
      cases path with
      | nil =>
          simp only [readPath, Option.some_inj] at heq
          subst heq
          exact hrefs
      | cons f rest =>
          cases v with
          | prim s => simp [readPath] at heq
          | ref a =>
              have ha : lo ≤ a ∧ a < hi := hrefs a (by simp [valRefs])
              obtain ⟨obj, hobj, hbound⟩ := halloc a ha.1 ha.2
              simp only [readPath, hobj] at heq
              cases hf : alGet obj f with
              | none => rw [hf] at heq; exact Option.noConfusion heq
              | some v2 =>
                  rw [hf] at heq
                  exact ih h lo hi v2 rest w
                    (fun b hb => hbound b
                      (valRefs_mem_objRefs obj f v2 (alGet_mem obj f v2 hf) b hb))
                    halloc heq

/-- The delivered copies head consecutive, pairwise-disjoint closed
fragments of the address range `[lo, hi)`. -/
inductive Frags : Heap → Nat → Nat → List (String × JVal) → Prop where
  | nil (h : Heap) (lo hi : Nat) : lo ≤ hi → Frags h lo hi []
  | cons (h : Heap) (lo mid hi : Nat) (c : String) (v : JVal)
      (ds : List (String × JVal)) :
      lo ≤ mid → fragClosed h v lo mid → Frags h mid hi ds →
      Frags h lo hi ((c, v) :: ds)

theorem Frags_le (h : Heap) (lo hi : Nat) (ds : List (String × JVal))
    (hf : Frags h lo hi ds) : lo ≤ hi := by
  induction hf with
  | nil _ _ hle => exact hle
  | cons lo' mid' hi' c v ds' hle hcl htail ih => omega

theorem Frags_get (h : Heap) (lo hi : Nat) (ds : List (String × JVal))
    (hf : Frags h lo hi ds) :
    ∀ (i : Nat) (hilt : i < ds.length), ∃ l m : Nat,
      lo ≤ l ∧ l ≤ m ∧ m ≤ hi ∧ fragClosed h (ds.get ⟨i, hilt⟩).2 l m := by
  induction hf with
  | nil _ _ _ => intro i hilt; simp at hilt
  | cons lo' mid' hi' c v ds' hle hcl htail ih =>
      intro i hilt
      cases i with
      | zero =>
          exact ⟨lo', mid', le_refl lo', hle,
            Frags_le _ mid' hi' ds' htail, hcl⟩
      | succ i' =>
          obtain ⟨l, m, h1, h2, h3, h4⟩ := ih i' (by simpa using hilt)
          exact ⟨l, m, by omega, h2, h3, h4⟩

theorem Frags_split (h : Heap) (lo hi : Nat) (ds : List (String × JVal))
    (hf : Frags h lo hi ds) :
    ∀ (i j : Nat) (hij : i < j) (hj : j < ds.length), ∃ l1 m1 l2 m2 : Nat,
      l1 ≤ m1 ∧ m1 ≤ l2 ∧ l2 ≤ m2 ∧
      fragClosed h (ds.get ⟨i, lt_trans hij hj⟩).2 l1 m1 ∧
      fragClosed h (ds.get ⟨j, hj⟩).2 l2 m2 := by
  induction hf with
  | nil _ _ _ => intro i j hij hj; simp at hj
  | cons lo' mid' hi' c v ds' hle hcl htail ih =>
      intro i j hij hj
      cases i with
      | zero =>
          obtain ⟨j', rfl⟩ : ∃ j', j = j' + 1 := ⟨j - 1, by omega⟩
          obtain ⟨l2, m2, hl2, hm2, _, hcl2⟩ :=
            Frags_get _ mid' hi' ds' htail j' (by simpa using hj)
          exact ⟨lo', mid', l2, m2, hle, hl2, hm2, hcl, hcl2⟩
      | succ i' =>
          obtain ⟨j', rfl⟩ : ∃ j', j = j' + 1 := ⟨j - 1, by omega⟩
          obtain ⟨l1, m1, l2, m2, a1, a2, a3, a4, a5⟩ :=
            ih i' j' (by omega) (by simpa using hj)
          exact ⟨l1, m1, l2, m2, a1, a2, a3, a4, a5⟩

/-- The delivery loop of `handleMessage`: for each registered client, in
routing-table insertion order, deliver a fresh deep clone of the
message. -/
def deliverAll (fuel : Nat) :
    Heap → Nat → List (String × DocumentDeltaConnection) → JVal →
    Option (List (String × JVal) × Heap × Nat)
  | h, n, [], _ => some ([], h, n)
  | h, n, (clientId, _) :: rest, message =>
      match cloneVal fuel h n message with
      | none => none
      | some (clone, h', n') =>
          match deliverAll fuel h' n' rest message with
          | none => none
          | some (ds, h'', n'') => some ((clientId, clone) :: ds, h'', n'')

/-- `DocumentService.handleMessage(event, documentId, message)`: look up
the object map for the event and the connection map for the document;
if either is missing, drop the message silently; otherwise deliver a
deep clone to every registered client (each entry is a live connection
object, so the per-client truthiness guard of the loop always passes). -/
def handleMessage (fuel : Nat) (s : RegistryState) (event documentId : String)
    (message : JVal) (h : Heap) (n : Nat) :
    Option (List (String × JVal) × Heap × Nat) :=
  match alGet s.eventMap event with
  | none => some ([], h, n)
  | some objectMap =>
      match alGet objectMap documentId with
      | none => some ([], h, n)
      | some connectionMap => deliverAll fuel h n connectionMap message

theorem deliverAll_spec (fuel : Nat)
    (conns : List (String × DocumentDeltaConnection)) (message : JVal) :
    ∀ (h : Heap) (n : Nat) (ds : List (String × JVal)) (h' : Heap) (n' : Nat),
      deliverAll fuel h n conns message = some (ds, h', n') →
      n ≤ n' ∧ (∀ a, a < n ∨ n' ≤ a → alGet h' a = alGet h a) ∧
      ds.map Prod.fst = conns.map Prod.fst ∧ Frags h' n n' ds := by
  induction conns with
  | nil =>
      intro h n ds h' n' heq
      simp only [deliverAll, Option.some_inj] at heq
      obtain ⟨rfl, rfl, rfl⟩ := heq
      exact ⟨le_refl n, fun a _ => rfl, rfl, Frags.nil h n n (le_refl n)⟩
  | cons p rest ih =>
      intro h n ds h' n' heq
      obtain ⟨clientId, conn⟩ := p
      simp only [deliverAll] at heq
      cases h1 : cloneVal fuel h n message with
      | none => simp only [h1] at heq; exact Option.noConfusion heq
      | some t1 =>
          obtain ⟨v3, h3, n3⟩ := t1
          simp only [h1] at heq
          cases h2 : deliverAll fuel h3 n3 rest message with
          | none => simp only [h2] at heq; exact Option.noConfusion heq
          | some t2 =>
              obtain ⟨ds4, h4, n4⟩ := t2
              simp only [h2, Option.some_inj] at heq
              obtain ⟨rfl, rfl, rfl⟩ := heq
              obtain ⟨hle1, hfr1, hcl1⟩ := (clone_spec fuel).1 h n message v3 h3 n3 h1
              obtain ⟨hle2, hfr2, hmap, hfrags⟩ := ih h3 n3 _ _ _ h2
              refine ⟨by omega, ?_, by simp [hmap], ?_⟩
              · intro a ha
                rw [hfr2 a (by omega), hfr1 a (by omega)]
              · refine Frags.cons _ n n3 _ clientId v3 _ hle1 ?_ hfrags
                exact fragClosed_agree h3 _ v3 n n3 hcl1
                  (fun a h1' h2' => hfr2 a (by omega))

/-- Claim C8: for every inbound transport event delivered for an event
name and session (document) identifier, each subscriber registered under
that pair receives its own delivery of an independent deep copy of the
payload: the delivered client list is exactly the registered client list
in order; the copies of any two distinct subscribers share no heap
address, and a field mutation performed through any reference observable
from one subscriber's copy changes nothing observable from the other's;
if no subscriber is registered for the pair, the event is dropped
silently, leaving heap and deliveries empty. -/
theorem handleMessage_deep_copy_isolation (fuel : Nat) (s : RegistryState)
    (event documentId : String) (message : JVal) (h : Heap) (n : Nat)
    (ds : List (String × JVal)) (h' : Heap) (n' : Nat)
    (hrun : handleMessage fuel s event documentId message h n = some (ds, h', n')) :
    (alGet s.eventMap event = none → ds = [] ∧ h' = h ∧ n' = n) ∧
    (∀ om, alGet s.eventMap event = some om → alGet om documentId = none →
      ds = [] ∧ h' = h ∧ n' = n) ∧
    (∀ om cm, alGet s.eventMap event = some om → alGet om documentId = some cm →
      ds.map Prod.fst = cm.map Prod.fst) ∧
    (∀ (i j : Nat) (hi1 : i < ds.length) (hj1 : j < ds.length), i ≠ j →
      (∀ a, a ∈ valRefs (ds.get ⟨i, hi1⟩).2 → a ∉ valRefs (ds.get ⟨j, hj1⟩).2) ∧
      (∀ (pf : Nat) (path : List String) (a : Nat) (f : String) (w : JVal)
          (pf2 : Nat) (path2 : List String),
        readPath pf h' (ds.get ⟨i, hi1⟩).2 path = some (JVal.ref a) →
        readPath pf2 (setField h' a f w) (ds.get ⟨j, hj1⟩).2 path2
          = readPath pf2 h' (ds.get ⟨j, hj1⟩).2 path2)) := by
  unfold handleMessage at hrun
  cases hev : alGet s.eventMap event with
  | none =>
      rw [hev] at hrun
      have hrun2 : (some (([] : List (String × JVal)), h, n) :
          Option (List (String × JVal) × Heap × Nat)) = some (ds, h', n') := hrun
      obtain ⟨rfl, rfl, rfl⟩ := Option.some_inj.mp hrun2
      refine ⟨fun _ => ⟨rfl, rfl, rfl⟩, ?_, ?_, ?_⟩
      · intro om hom
        exact Option.noConfusion hom
      · intro om cm hom
        exact Option.noConfusion hom
      · intro i j hi1
        exact absurd hi1 (by simp)
  | some om =>
      rw [hev] at hrun
      have hrun1 : (match alGet om documentId with
          | none => some (([] : List (String × JVal)), h, n)
          | some connectionMap => deliverAll fuel h n connectionMap message)
          = some (ds, h', n') := hrun
      cases hdoc : alGet om documentId with
      | none =>
          rw [hdoc] at hrun1
          have hrun2 : (some (([] : List (String × JVal)), h, n) :
              Option (List (String × JVal) × Heap × Nat)) = some (ds, h', n') := hrun1
          obtain ⟨rfl, rfl, rfl⟩ := Option.some_inj.mp hrun2
          refine ⟨?_, fun om' hom' _ => ⟨rfl, rfl, rfl⟩, ?_, ?_⟩
          · intro habs
            exact Option.noConfusion habs
          · intro om' cm hom' hcm
            obtain rfl : om = om' := by injection hom'
            rw [hdoc] at hcm
            exact Option.noConfusion hcm
          · intro i j hi1
            exact absurd hi1 (by simp)
      | some cm =>
          rw [hdoc] at hrun1
          have hrun2 : deliverAll fuel h n cm message = some (ds, h', n') := hrun1
          obtain ⟨hle, hframe, hmap, hfrags⟩ :=
            deliverAll_spec fuel cm message h n ds h' n' hrun2
          refine ⟨fun habs => Option.noConfusion habs, ?_, ?_, ?_⟩
          · intro om' hom' hcm'
            obtain rfl : om = om' := by injection hom'
            rw [hdoc] at hcm'
            exact Option.noConfusion hcm'
          · intro om' cm' hom' hcm'
            obtain rfl : om = om' := by injection hom'
            rw [hdoc] at hcm'
            obtain rfl : cm = cm' := by injection hcm'
            exact hmap
          · intro i j hi1 hj1 hij
            have main : ∀ (x y : Nat) (hx : x < ds.length) (hy : y < ds.length),
                x < y →
                (∀ a, a ∈ valRefs (ds.get ⟨x, hx⟩).2 →
                  a ∉ valRefs (ds.get ⟨y, hy⟩).2) ∧
                (∀ a, a ∈ valRefs (ds.get ⟨y, hy⟩).2 →
                  a ∉ valRefs (ds.get ⟨x, hx⟩).2) ∧
                (∀ (pf : Nat) (path : List String) (a : Nat) (f : String) (w : JVal)
                    (pf2 : Nat) (path2 : List String),
                  readPath pf h' (ds.get ⟨x, hx⟩).2 path = some (JVal.ref a) →
                  readPath pf2 (setField h' a f w) (ds.get ⟨y, hy⟩).2 path2
                    = readPath pf2 h' (ds.get ⟨y, hy⟩).2 path2) ∧
                (∀ (pf : Nat) (path : List String) (a : Nat) (f : String) (w : JVal)
                    (pf2 : Nat) (path2 : List String),
                  readPath pf h' (ds.get ⟨y, hy⟩).2 path = some (JVal.ref a) →
                  readPath pf2 (setField h' a f w) (ds.get ⟨x, hx⟩).2 path2
                    = readPath pf2 h' (ds.get ⟨x, hx⟩).2 path2) := by
              intro x y hx hy hxy
              obtain ⟨l1, m1, l2, m2, b1, b2, b3, hclx, hcly⟩ :=
                Frags_split h' n n' ds hfrags x y hxy hy
              refine ⟨?_, ?_, ?_, ?_⟩
              · intro a hax hay
                have h1 := hclx.1 a hax
                have h2 := hcly.1 a hay
                omega
              · intro a hay hax
                have h1 := hclx.1 a hax
                have h2 := hcly.1 a hay
                omega
              · intro pf path a f w pf2 path2 hread
                have haddr := readPath_refs pf h' l1 m1 _ path (JVal.ref a)
                  hclx.1 hclx.2 hread a (by simp [valRefs])
                exact readPath_agree pf2 h' (setField h' a f w) l2 m2 _ path2
                  hcly.1 hcly.2
                  (fun b hb1 hb2 => setField_frame h' a f w b (by omega))
              · intro pf path a f w pf2 path2 hread
                have haddr := readPath_refs pf h' l2 m2 _ path (JVal.ref a)
                  hcly.1 hcly.2 hread a (by simp [valRefs])
                exact readPath_agree pf2 h' (setField h' a f w) l1 m1 _ path2
                  hclx.1 hclx.2
                  (fun b hb1 hb2 => setField_frame h' a f w b (by omega))
            rcases Nat.lt_or_ge i j with hlt | hge
            · obtain ⟨d1, _, d3, _⟩ := main i j hi1 hj1 hlt
              exact ⟨d1, d3⟩
            · have hlt : j < i := by omega
              obtain ⟨_, d2, _, d4⟩ := main j i hj1 hi1 hlt
              exact ⟨d2, d4⟩

/-! Concrete fixture for the delivery-isolation witness: one event, one
document, two subscribers, and a one-object payload. -/

def c8conn1 : DocumentDeltaConnection := ⟨"d", "c1", false, "", ""⟩

def c8conn2 : DocumentDeltaConnection := ⟨"d", "c2", false, "", ""⟩

def c8reg : RegistryState :=
  ⟨[("op", [("d", [("c1", c8conn1), ("c2", c8conn2)])])], ["op"]⟩

def c8heap : Heap := [(0, [("x", JVal.prim "v")])]

def c8heapOut : Heap :=
  [(0, [("x", JVal.prim "v")]), (1, [("x", JVal.prim "v")]),
   (2, [("x", JVal.prim "v")])]

def c8ds : List (String × JVal) := [("c1", JVal.ref 1), ("c2", JVal.ref 2)]

/-- Claim C8 witness. -/
theorem handleMessage_deep_copy_isolation_witness :
    handleMessage 1 c8reg "op" "d" (JVal.ref 0) c8heap 1
      = some (c8ds, c8heapOut, 3) ∧
    ((alGet c8reg.eventMap "op" = none → c8ds = [] ∧ c8heapOut = c8heap ∧ 3 = 1) ∧
      (∀ om, alGet c8reg.eventMap "op" = some om → alGet om "d" = none →
        c8ds = [] ∧ c8heapOut = c8heap ∧ 3 = 1) ∧
      (∀ om cm, alGet c8reg.eventMap "op" = some om → alGet om "d" = some cm →
        c8ds.map Prod.fst = cm.map Prod.fst) ∧
      (∀ (i j : Nat) (hi1 : i < c8ds.length) (hj1 : j < c8ds.length), i ≠ j →
        (∀ a, a ∈ valRefs (c8ds.get ⟨i, hi1⟩).2 →
          a ∉ valRefs (c8ds.get ⟨j, hj1⟩).2) ∧
        (∀ (pf : Nat) (path : List String) (a : Nat) (f : String) (w : JVal)
            (pf2 : Nat) (path2 : List String),
          readPath pf c8heapOut (c8ds.get ⟨i, hi1⟩).2 path = some (JVal.ref a) →
          readPath pf2 (setField c8heapOut a f w) (c8ds.get ⟨j, hj1⟩).2 path2
            = readPath pf2 c8heapOut (c8ds.get ⟨j, hj1⟩).2 path2))) := by
  have hrun : handleMessage 1 c8reg "op" "d" (JVal.ref 0) c8heap 1
      = some (c8ds, c8heapOut, 3) := by
    simp [handleMessage, c8reg, c8heap, c8ds, c8heapOut, deliverAll, cloneVal,
      cloneObj, alGet, alSet, c8conn1, c8conn2]
  exact ⟨hrun, handleMessage_deep_copy_isolation 1 c8reg "op" "d" (JVal.ref 0)
    c8heap 1 c8ds c8heapOut 3 hrun⟩

end SocketStorage

end FluidSpec
